import Mathlib

/-!
Verification of the repomap core (src/extensions/vscode/tools/repomap/repomap.py).

The development shallowly embeds the path filter, tree cut, file scanner,
budget ledger driver loop, scan scheduler and ranker scoring of repomap.py.
Machine strings are Lean Strings manipulated through their character lists;
Python ints are Nat (or Int where the source can go negative); files are
records carrying the observable attributes the scanner reads.  Regex pattern
tables are application data outside the verified core (spec section 1), so a
source line is abstracted to its byte length together with the result the
first matching pattern of the file's table would produce on it; everything
downstream of that point (kind normalization, per-file caps, byte accounting,
the driver ledger) is translated from the source line by line.
-/

namespace Repomap

/-- Character-list split on a separator, modelling Python str.split for a
one-character separator: split "a/b" gives two segments, a trailing
separator yields a trailing empty segment, and the empty string yields one
empty segment. -/
def splitCharsOn (sep : Char) : List Char → List (List Char)
  | [] => [[]]
  | c :: cs =>
    let r := splitCharsOn sep cs
    if c = sep then [] :: r
    else
      match r with
      | [] => [[c]]
      | s :: ss => (c :: s) :: ss

/-- Segments of a '/'-separated relative path, as in rel_path.split of
repomap.py line 243 (os.sep is '/' on the modelled platform, so the
replace call is the identity). -/
def pathSegs (p : String) : List String := (splitCharsOn '/' p.data).map String.mk

/-- Model of os.path.basename for '/'-separated relative paths: the part
after the last separator. -/
def basename (p : String) : String := (pathSegs p).getLastD p

/-- Python str.lower restricted to the character-wise case mapping. -/
def lowerStr (s : String) : String := String.mk (s.data.map Char.toLower)

/-- Boolean str.startswith. -/
def startsWithB (s pre : String) : Bool := pre.data.isPrefixOf s.data

/-- Boolean substring containment, modelling the Python expression
needle in hay. -/
def containsTok (hay needle : String) : Bool :=
  hay.data.tails.any (fun t => needle.data.isPrefixOf t)

/-- Model of os.path.splitext(p)[1]: the suffix of the basename from its
last dot, provided some earlier character of the basename is not a dot
(so dotfiles such as .gitignore have no extension). -/
def extOf (p : String) : String :=
  let bs := (basename p).data
  match ((List.range bs.length).filter (fun i => bs[i]? == some '.')).getLast? with
  | none => String.mk []
  | some i =>
    if (bs.take i).any (fun c => c ≠ '.') then String.mk (bs.drop i) else String.mk []

/-- Lower-cased extension, as computed at repomap.py lines 396 and 601. -/
def extLower (p : String) : String := lowerStr (extOf p)

/-- Glob matching of a character text against a character pattern, modelling
fnmatch.fnmatch as used by match_pattern (repomap.py line 229): a star
matches any sequence of characters including separators, a question mark
matches exactly one character, and any other character matches itself.
Bracket character classes are not modelled; no pattern examined by the
claims contains one. -/
def globChars : List Char → List Char → Bool
  | [], t => t.isEmpty
  | c :: ps, t =>
    if c = '*' then t.tails.any (fun s => globChars ps s)
    else
      match t with
      | [] => false
      | a :: ts => (a == c || c == '?') && globChars ps ts

/-- Boolean fnmatch.fnmatch on strings. -/
def fnmatchB (name pat : String) : Bool := globChars pat.data name.data

/-- match_pattern, repomap.py lines 221-231.  Directory-only patterns
(trailing slash) match a directory equal to the prefix or below it; other
patterns are glob-matched against the full relative path and against the
basename. -/
def match_pattern (pattern : String) (rel_path : String) (is_dir : Bool) : Bool :=
  if pattern.data.getLast? == some '/' then
    if is_dir = false then false
    else
      let pre := pattern.data.dropLast
      rel_path.data == pre || (pre ++ ['/']).isPrefixOf rel_path.data
  else
    fnmatchB rel_path pattern || fnmatchB (basename rel_path) pattern

/-- DEFAULT_EXCLUDED_DIRS, repomap.py lines 30-54 (a Python set, modelled
as the list of its members; only membership is ever used). -/
def DEFAULT_EXCLUDED_DIRS : List String :=
  [".git", "node_modules", "dist", "build", "DerivedData", ".next", ".turbo",
   ".cache", ".idea", ".vscode", ".pnpm-store", "Pods", "__pycache__",
   ".pytest_cache", ".mypy_cache", ".ruff_cache", ".venv", "venv", ".tox",
   "target", "coverage", ".build", ".swiftpm"]

/-- should_exclude, repomap.py lines 234-263, translated branch for branch:
default directory segments, then caller exclude globs, then gitignore
patterns with negation veto (whose False return bypasses the include
check), then allow-list include globs. -/
def should_exclude (rel_path : String) (is_dir : Bool) (exclude_dirs : List String)
    (exclude_globs include_globs gitignore_patterns gitignore_neg_patterns : List String) :
    Bool :=
  if (pathSegs rel_path).any (fun part => exclude_dirs.contains part) then true
  else if exclude_globs.any (fun p => match_pattern p rel_path is_dir) then true
  else if !gitignore_patterns.isEmpty
      && gitignore_patterns.any (fun p => match_pattern p rel_path is_dir) then
    if !gitignore_neg_patterns.isEmpty
        && gitignore_neg_patterns.any (fun p => match_pattern p rel_path is_dir) then false
    else true
  else if !include_globs.isEmpty then
    !(include_globs.any (fun p => match_pattern p rel_path is_dir))
  else false

/-- C8: if a gitignore pattern matches and neither a default excluded
directory segment nor a caller exclude glob applies, the path is excluded
exactly when no gitignore negation pattern matches; a matching default
directory segment or caller exclude glob forces exclusion regardless of
negations; concretely, with gitignore pattern *.log and negation keep.log
(the stored form of !keep.log), keep.log is included and other.log is
excluded. -/
theorem c8_gitignore_negation (rel : String) (is_dir : Bool)
    (dirs eg ig gp gnp : List String) :
    ((pathSegs rel).any (fun part => dirs.contains part) = false →
      eg.any (fun p => match_pattern p rel is_dir) = false →
      gp.any (fun p => match_pattern p rel is_dir) = true →
      should_exclude rel is_dir dirs eg ig gp gnp
        = !(gnp.any (fun p => match_pattern p rel is_dir)))
    ∧ ((pathSegs rel).any (fun part => dirs.contains part) = true ∨
        eg.any (fun p => match_pattern p rel is_dir) = true →
      should_exclude rel is_dir dirs eg ig gp gnp = true)
    ∧ should_exclude ("keep.log") false DEFAULT_EXCLUDED_DIRS [] []
        [("*.log")] [("keep.log")] = false
    ∧ should_exclude ("other.log") false DEFAULT_EXCLUDED_DIRS [] []
        [("*.log")] [("keep.log")] = true := by
  refine ⟨?_, ?_, by decide, by decide⟩
  · intro h1 h2 h3
    have hne : gp.isEmpty = false := by
      cases gp with
      | nil => simp at h3
      | cons a l => rfl
    unfold should_exclude
    rw [h1, h2, hne, h3]
    simp only [Bool.not_false, Bool.and_true, if_false, Bool.true_and, if_true]
    cases hn : gnp.any (fun p => match_pattern p rel is_dir) with
    | false => simp [hn]
    | true =>
      have hne2 : gnp.isEmpty = false := by
        cases gnp with
        | nil => simp at hn
        | cons a l => rfl
      simp [hn, hne2]
  · intro h
    unfold should_exclude
    rcases h with h | h
    · rw [h]
      simp
    · rw [h]
      simp only [Bool.if_true_left, Bool.or_eq_true, Bool.true_eq]
      cases hd : (pathSegs rel).any (fun part => dirs.contains part) <;> simp

/-- Witness for C8 at the concrete gitignore example: applying the theorem
at keep.log discharges its hypotheses and yields non-exclusion. -/
theorem c8_witness :
    should_exclude ("keep.log") false DEFAULT_EXCLUDED_DIRS [] []
      [("*.log")] [("keep.log")] = false := by
  have h := (c8_gitignore_negation ("keep.log") false DEFAULT_EXCLUDED_DIRS [] []
    [("*.log")] [("keep.log")]).1 (by decide) (by decide) (by decide)
  rw [h]
  decide

/-- Rendered tree text: the walked lines joined by a newline, modelling
the join at repomap.py line 375.  Lines are character lists. -/
def joinLines : List (List Char) → List Char
  | [] => []
  | [l] => l
  | l :: l2 :: ls => l ++ '\n' :: joinLines (l2 :: ls)

/-- Index of the last newline of a character list, or none, modelling
str.rfind at repomap.py line 379 (rfind returning -1 maps to none). -/
def lastNewlinePos (l : List Char) : Option Nat :=
  ((List.range l.length).filter (fun i => l[i]? == some '\n')).getLast?

/-- build_tree result assembly and character-cap cut, repomap.py lines
374-382, given the rendered lines of the walk: return the full text with
an unset flag when it fits, otherwise cut at the cap, back up to the last
newline when one sits at a positive index, and set the flag. -/
def build_tree_cut (lines : List (List Char)) (max_chars : Nat) : List Char × Bool :=
  if (joinLines lines).length ≤ max_chars then (joinLines lines, false)
  else
    match lastNewlinePos ((joinLines lines).take max_chars) with
    | some i =>
      if 0 < i then (((joinLines lines).take max_chars).take i, true)
      else ((joinLines lines).take max_chars, true)
    | none => ((joinLines lines).take max_chars, true)

/-- The spec's notion of a line-safe cut: the string equals the join of
some initial segment of the rendered lines (a prefix of the full tree up
to and including a full line). -/
def lineBoundedCut (lines : List (List Char)) (s : List Char) : Bool :=
  (List.range (lines.length + 1)).any (fun m => s == joinLines (lines.take m))

theorem joinLines_cons_cons (l l2 : List Char) (ls : List (List Char)) :
    joinLines (l :: l2 :: ls) = l ++ '\n' :: joinLines (l2 :: ls) := rfl

/-- A prefix of the joined lines that stops immediately before a newline
of the join is itself a join of a nonempty initial segment of the lines,
provided no line contains a newline and no line is empty. -/
theorem joinLines_take_at_newline (lines : List (List Char)) (i : Nat)
    (hnl : ∀ l ∈ lines, '\n' ∉ l) (hne : ∀ l ∈ lines, l ≠ [])
    (hi : (joinLines lines)[i]? = some '\n') :
    ∃ m, 1 ≤ m ∧ m ≤ lines.length ∧
      (joinLines lines).take i = joinLines (lines.take m) := by
  induction lines generalizing i with
  | nil => simp [joinLines] at hi
  | cons l ls ih =>
    cases ls with
    | nil =>
      have hmem : '\n' ∈ l := by
        have h1 : joinLines [l] = l := rfl
        rw [h1] at hi
        exact List.getElem?_mem hi
      exact absurd hmem (hnl l (by simp))
    | cons l2 ls2 =>
      rw [joinLines_cons_cons] at hi
      rcases Nat.lt_trichotomy i l.length with hlt | heq | hgt
      · exfalso
        rw [List.getElem?_append_left hlt] at hi
        exact hnl l (by simp) (List.getElem?_mem hi)
      · refine ⟨1, le_refl 1, by simp, ?_⟩
        subst heq
        rw [joinLines_cons_cons, List.take_left]
        rfl
      · obtain ⟨j, rfl⟩ : ∃ j, i = l.length + 1 + j := by
          refine ⟨i - (l.length + 1), ?_⟩
          omega
        have hrest : (joinLines (l2 :: ls2))[j]? = some '\n' := by
          rw [List.getElem?_append_right (by omega)] at hi
          have he : l.length + 1 + j - l.length = j + 1 := by omega
          rw [he] at hi
          simpa using hi
        obtain ⟨m, hm1, hm2, hm3⟩ := ih j
          (fun x hx => hnl x (List.mem_cons_of_mem l hx))
          (fun x hx => hne x (List.mem_cons_of_mem l hx)) hrest
        obtain ⟨m', rfl⟩ : ∃ m', m = m' + 1 := ⟨m - 1, by omega⟩
        refine ⟨m' + 1 + 1, by omega, by simpa using hm2, ?_⟩
        have e1 : (l2 :: ls2).take (m' + 1) = l2 :: ls2.take m' := rfl
        have e2 : (l :: l2 :: ls2).take (m' + 1 + 1) = l :: l2 :: ls2.take m' := rfl
        rw [joinLines_cons_cons, List.take_append_eq_append_take,
          List.take_of_length_le (by omega : l.length ≤ l.length + 1 + j)]
        have e3 : l.length + 1 + j - l.length = j + 1 := by omega
        rw [e3, e2]
        rw [e1] at hm3
        rw [joinLines_cons_cons]
        congr 1
        rw [List.take_succ_cons, hm3]

/-- C4 counterexample: with a single rendered line of seven characters and
a cap of three, the cut returns the first three characters of the line —
a mid-line cut — with the truncation flag set, so the claimed line-safe
prefix property fails on this tree. -/
theorem c4_counterexample :
    (build_tree_cut [['a','a','a','a','a','a','a']] 3).2 = true
    ∧ lineBoundedCut [['a','a','a','a','a','a','a']]
        (build_tree_cut [['a','a','a','a','a','a','a']] 3).1 = false := by
  decide

/-- C4 (amended): when the rendered tree fits the character cap, build_tree
returns the full tree with the flag unset; when it exceeds the cap the
flag is set, and the returned string is a prefix of the full tree ending
at a line boundary provided the first rendered line is shorter than the
cap (when even the first line overflows the cap, the cut is mid-line).
Rendered lines of a real walk are nonempty and newline-free. -/
theorem c4_tree_cut_line_safe (lines : List (List Char)) (max_chars : Nat)
    (hnl : ∀ l ∈ lines, '\n' ∉ l) (hne : ∀ l ∈ lines, l ≠ []) :
    ((joinLines lines).length ≤ max_chars →
      build_tree_cut lines max_chars = (joinLines lines, false))
    ∧ (max_chars < (joinLines lines).length →
      (build_tree_cut lines max_chars).2 = true
      ∧ ((lines.headD []).length < max_chars →
        lineBoundedCut lines (build_tree_cut lines max_chars).1 = true)) := by
  constructor
  · intro h
    unfold build_tree_cut
    rw [if_pos h]
  · intro h
    have hnot : ¬ (joinLines lines).length ≤ max_chars := by omega
    constructor
    · unfold build_tree_cut
      rw [if_neg hnot]
      cases hpos : lastNewlinePos ((joinLines lines).take max_chars) with
      | none => rfl
      | some i =>
        dsimp only
        by_cases hi : 0 < i <;> simp [hi]
    · intro hfl
      cases lines with
      | nil => simp [joinLines] at h
      | cons l ls =>
        cases ls with
        | nil =>
          exfalso
          have : (joinLines [l]).length = l.length := by simp [joinLines]
          rw [this] at h
          simp at hfl
          omega
        | cons l2 ls2 =>
          have hl_lt : l.length < max_chars := by simpa using hfl
          have htree : joinLines (l :: l2 :: ls2) = l ++ '\n' :: joinLines (l2 :: ls2) :=
            joinLines_cons_cons l l2 ls2
          have htrunc_len : ((joinLines (l :: l2 :: ls2)).take max_chars).length = max_chars := by
            rw [List.length_take]
            omega
          have hnl_at : ((joinLines (l :: l2 :: ls2)).take max_chars)[l.length]? = some '\n' := by
            rw [List.getElem?_take_of_lt hl_lt, htree,
              List.getElem?_append_right (le_refl l.length)]
            simp
          have hmem : l.length ∈ (List.range ((joinLines (l :: l2 :: ls2)).take
              max_chars).length).filter
              (fun i => ((joinLines (l :: l2 :: ls2)).take max_chars)[i]? == some '\n') := by
            rw [List.mem_filter, List.mem_range, htrunc_len]
            refine ⟨hl_lt, ?_⟩
            rw [hnl_at]
            simp
          obtain ⟨i, hival⟩ : ∃ i, lastNewlinePos ((joinLines (l :: l2 :: ls2)).take
              max_chars) = some i := by
            unfold lastNewlinePos
            apply Option.isSome_iff_exists.mp
            apply List.getLast?_isSome.mpr
            intro hW
            rw [hW] at hmem
            simp at hmem
          have himem : i ∈ (List.range ((joinLines (l :: l2 :: ls2)).take
              max_chars).length).filter
              (fun i => ((joinLines (l :: l2 :: ls2)).take max_chars)[i]? == some '\n') := by
            unfold lastNewlinePos at hival
            exact List.mem_of_getLast?_eq_some hival
          rw [List.mem_filter, List.mem_range, htrunc_len] at himem
          obtain ⟨hi_lt, hi_nl⟩ := himem
          have hi_nl' : (joinLines (l :: l2 :: ls2))[i]? = some '\n' := by
            rw [List.getElem?_take_of_lt hi_lt] at hi_nl
            simpa using hi_nl
          have hi_pos : 0 < i := by
            rcases Nat.eq_zero_or_pos i with h0 | h0
            · exfalso
              subst h0
              rcases hne l (by simp) with hl
              cases l with
              | nil => exact hl rfl
              | cons c cs =>
                rw [htree] at hi_nl'
                simp at hi_nl'
                exact hnl (c :: cs) (by simp) (by simp [hi_nl'])
            · exact h0
          have hres : (build_tree_cut (l :: l2 :: ls2) max_chars).1
              = (joinLines (l :: l2 :: ls2)).take i := by
            unfold build_tree_cut
            rw [if_neg hnot, hival]
            dsimp only
            rw [if_pos hi_pos, List.take_take, Nat.min_eq_left (le_of_lt hi_lt)]
          obtain ⟨m, hm1, hm2, hm3⟩ := joinLines_take_at_newline (l :: l2 :: ls2) i
            hnl hne hi_nl'
          rw [hres, hm3]
          unfold lineBoundedCut
          rw [List.any_eq_true]
          exact ⟨m, by rw [List.mem_range]; omega, by simp⟩

/-- Witness for C4 at a two-line tree cut at two characters: the flag is
set and the result is the first full line. -/
theorem c4_witness :
    (build_tree_cut [['a'],['b']] 2).2 = true
    ∧ lineBoundedCut [['a'],['b']] (build_tree_cut [['a'],['b']] 2).1 = true := by
  have h := (c4_tree_cut_line_safe [['a'],['b']] 2 (by decide) (by decide)).2 (by decide)
  exact ⟨h.1, h.2 (by decide)⟩

/-- MAX_SYMBOLS_PER_FILE, repomap.py line 28: a module constant, not a
command-line option. -/
def MAX_SYMBOLS_PER_FILE : Nat := 25

/-- The closed kind set tested at repomap.py lines 441-450. -/
def KIND_SET : List String :=
  ["class", "struct", "func", "protocol", "enum", "typealias", "var", "let"]

/-- The reassignment at repomap.py lines 452-453: an actor kind is renamed
to class before the following if/elif chain runs. -/
def actorMapped (kind : String) : String :=
  if kind == "actor" then "class" else kind

/-- Kind normalization, repomap.py lines 441-461, translated branch for
branch: a kind already in the closed set is kept; otherwise the actor
renaming of lines 452-453 runs first and the subsequent if/elif/else chain
of lines 454-461 then dispatches on the renamed value. -/
def normalize_kind (kind : String) : String :=
  if KIND_SET.contains kind then kind
  else if actorMapped kind == "interface" then "typealias"
  else if actorMapped kind == "function" then "func"
  else if actorMapped kind == "const" then "var"
  else "typealias"

/-- A symbol record as appended at repomap.py lines 462-469. -/
structure Sym where
  name : String
  kind : String
  path : String
  line : Nat
deriving DecidableEq, Repr

/-- One physical source line, abstracted to its encoded byte length
(len(line.encode) at repomap.py line 413) and the outcome of testing the
line against the file's ordered pattern table (repomap.py lines 422-440):
none when the line is blank, starts with a comment marker, or matches no
pattern; otherwise the captured name and the raw kind (the table kind, or
the matched declaration keyword for the Swift table whose kind is None). -/
structure SrcLine where
  len : Nat
  sym? : Option (String × String)
deriving DecidableEq

/-- A candidate file as the scanner sees it: relative path, stat size in
bytes, and its lines.  Well-formed files satisfy wfBytes below, since the
scanner's re-encoded line lengths never exceed the on-disk size. -/
structure PFile where
  relPath : String
  size : Nat
  lines : List SrcLine
deriving DecidableEq

/-- Extensions with a registered pattern table: the keys of
SYMBOL_PATTERNS after the reuse loop at repomap.py lines 163-165; every
table is nonempty, so Python truthiness of the looked-up table equals
membership here. -/
def SYMBOL_PATTERN_EXTS : List String := [".ts", ".tsx", ".js", ".jsx", ".py", ".swift"]

/-- Whether SYMBOL_PATTERNS.get(ext) is truthy for the file's extension
(repomap.py lines 396-397). -/
def hasPatternTable (rel : String) : Bool := SYMBOL_PATTERN_EXTS.contains (extLower rel)

/-- The loop state of scan_file, repomap.py lines 398-401: collecting
models whether the local patterns variable is still truthy (it is cleared
at line 472 once the per-file symbol cap is reached). -/
structure ScanState where
  lineCount : Nat
  bytesRead : Nat
  symbols : List Sym
  collecting : Bool
  truncated : Bool
deriving DecidableEq

/-- The per-line loop of scan_file, repomap.py lines 404-473, translated
check for check in source order: line-cap break before any byte
accounting, exhausted-global-budget break, byte accumulation, per-file
byte cap break, remaining-global-budget break, then pattern matching with
first-match-wins, kind normalization and the per-file symbol cap. -/
def scanLoop (relPath : String) (max_scan_lines max_file_bytes : Nat)
    (max_total_bytes_remaining : Int) : List SrcLine → ScanState → ScanState
  | [], s => s
  | ln :: ls, s =>
    if max_scan_lines < s.lineCount + 1 then
      { s with lineCount := s.lineCount + 1 }
    else if max_total_bytes_remaining ≤ 0 then
      { s with lineCount := s.lineCount + 1, truncated := true }
    else if max_file_bytes < s.bytesRead + ln.len then
      { s with
        lineCount := s.lineCount + 1
        bytesRead := s.bytesRead + ln.len
        truncated := true }
    else if max_total_bytes_remaining < ((s.bytesRead + ln.len : Nat) : Int) then
      { s with
        lineCount := s.lineCount + 1
        bytesRead := s.bytesRead + ln.len
        truncated := true }
    else if s.collecting = false then
      scanLoop relPath max_scan_lines max_file_bytes max_total_bytes_remaining ls
        { s with lineCount := s.lineCount + 1, bytesRead := s.bytesRead + ln.len }
    else
      match ln.sym? with
      | none =>
        scanLoop relPath max_scan_lines max_file_bytes max_total_bytes_remaining ls
          { s with lineCount := s.lineCount + 1, bytesRead := s.bytesRead + ln.len }
      | some (nm, kd) =>
        scanLoop relPath max_scan_lines max_file_bytes max_total_bytes_remaining ls
          { s with
            lineCount := s.lineCount + 1
            bytesRead := s.bytesRead + ln.len
            symbols := s.symbols ++ [⟨nm, normalize_kind kd, relPath, s.lineCount + 1⟩]
            collecting :=
              if MAX_SYMBOLS_PER_FILE ≤ (s.symbols ++
                  [(⟨nm, normalize_kind kd, relPath, s.lineCount + 1⟩ : Sym)]).length
                then false else true }

/-- The scan_file return tuple (line_count or None, symbols, bytes_read,
truncated), repomap.py line 392 and 477. -/
structure ScanResult where
  lineCount? : Option Nat
  symbols : List Sym
  bytesRead : Nat
  truncated : Bool
deriving DecidableEq

/-- scan_file, repomap.py lines 385-477: files larger than the per-file KB
cap are skipped outright (size/1024 > max_file_kb is size > max_file_kb *
1024 over exact arithmetic); otherwise the line loop runs from the empty
state.  Read errors are not modelled: the embedded file is its readable
content. -/
def scan_file (f : PFile) (max_file_kb max_file_bytes max_scan_lines : Nat)
    (max_total_bytes_remaining : Int) : ScanResult :=
  if max_file_kb * 1024 < f.size then ⟨none, [], 0, false⟩
  else
    ⟨some (scanLoop f.relPath max_scan_lines max_file_bytes max_total_bytes_remaining
        f.lines ⟨0, 0, [], hasPatternTable f.relPath, false⟩).lineCount,
      (scanLoop f.relPath max_scan_lines max_file_bytes max_total_bytes_remaining
        f.lines ⟨0, 0, [], hasPatternTable f.relPath, false⟩).symbols,
      (scanLoop f.relPath max_scan_lines max_file_bytes max_total_bytes_remaining
        f.lines ⟨0, 0, [], hasPatternTable f.relPath, false⟩).bytesRead,
      (scanLoop f.relPath max_scan_lines max_file_bytes max_total_bytes_remaining
        f.lines ⟨0, 0, [], hasPatternTable f.relPath, false⟩).truncated⟩

/-- C3 (code evaluated at the failing input): every normalized kind lands
in the closed set, but a Swift actor declaration line is emitted with kind
typealias, not class — the actor-to-class renaming at line 452 is
immediately overwritten because the following chain is if/elif/else rather
than a continuation: class matches none of its tests and falls into the
else branch. -/
theorem c3_symbol_kind_normalization :
    (∀ kind, KIND_SET.contains (normalize_kind kind) = true)
    ∧ normalize_kind ("actor") = "typealias"
    ∧ (scan_file ⟨"A.swift", 12, [⟨12, some ("Foo", "actor")⟩]⟩
        512 524288 4000 1000000).symbols = [⟨"Foo", "typealias", "A.swift", 1⟩]
    ∧ ("typealias" : String) ≠ "class" := by
  refine ⟨?_, by decide, by decide, by decide⟩
  intro k
  unfold normalize_kind
  split_ifs with h1 h2 h3 h4
  · exact h1
  · decide
  · decide
  · decide
  · decide

theorem scanLoop_lineCount_le (relPath : String) (sl fb : Nat) (rem : Int) :
    ∀ (lines : List SrcLine) (s : ScanState), s.lineCount ≤ sl →
      (scanLoop relPath sl fb rem lines s).lineCount ≤ sl + 1 := by
  intro lines
  induction lines with
  | nil => intro s hs; simp only [scanLoop]; omega
  | cons ln ls ih =>
    intro s hs
    unfold scanLoop
    split_ifs with h1 h2 h3 h4 h5
    · dsimp only; omega
    · dsimp only; omega
    · dsimp only; omega
    · dsimp only; omega
    · exact ih _ (by dsimp only; omega)
    · cases hsym : ln.sym? with
      | none => exact ih _ (by dsimp only; omega)
      | some nk =>
        cases nk with
        | mk nm kd => exact ih _ (by dsimp only; omega)

theorem sum_map_take_le (lines : List SrcLine) (n : Nat) :
    ((lines.take n).map SrcLine.len).sum ≤ (lines.map SrcLine.len).sum := by
  conv_rhs => rw [← List.take_append_drop n lines]
  rw [List.map_append, List.sum_append]
  exact Nat.le_add_right _ _

theorem scanLoop_bytes_le (relPath : String) (sl fb : Nat) (rem : Int) :
    ∀ (lines : List SrcLine) (s : ScanState),
      (scanLoop relPath sl fb rem lines s).bytesRead
        ≤ s.bytesRead + ((lines.take (sl - s.lineCount)).map SrcLine.len).sum := by
  intro lines
  induction lines with
  | nil => intro s; simp [scanLoop]
  | cons ln ls ih =>
    intro s
    unfold scanLoop
    split_ifs with h1 h2 h3 h4 h5
    · exact Nat.le_add_right _ _
    · exact Nat.le_add_right _ _
    · obtain ⟨k, hk⟩ : ∃ k, sl - s.lineCount = k + 1 := ⟨sl - s.lineCount - 1, by omega⟩
      rw [hk, List.take_succ_cons]
      dsimp only
      simp only [List.map_cons, List.sum_cons]
      omega
    · obtain ⟨k, hk⟩ : ∃ k, sl - s.lineCount = k + 1 := ⟨sl - s.lineCount - 1, by omega⟩
      rw [hk, List.take_succ_cons]
      dsimp only
      simp only [List.map_cons, List.sum_cons]
      omega
    · obtain ⟨k, hk⟩ : ∃ k, sl - s.lineCount = k + 1 := ⟨sl - s.lineCount - 1, by omega⟩
      rw [hk, List.take_succ_cons]
      refine le_trans (ih _) ?_
      simp only [List.map_cons, List.sum_cons]
      have he : sl - (s.lineCount + 1) = k := by omega
      rw [he]
      omega
    · cases hsym : ln.sym? with
      | none =>
        obtain ⟨k, hk⟩ : ∃ k, sl - s.lineCount = k + 1 := ⟨sl - s.lineCount - 1, by omega⟩
        rw [hk, List.take_succ_cons]
        refine le_trans (ih _) ?_
        simp only [List.map_cons, List.sum_cons]
        have he : sl - (s.lineCount + 1) = k := by omega
        rw [he]
        omega
      | some nk =>
        cases nk with
        | mk nm kd =>
          obtain ⟨k, hk⟩ : ∃ k, sl - s.lineCount = k + 1 := ⟨sl - s.lineCount - 1, by omega⟩
          rw [hk, List.take_succ_cons]
          refine le_trans (ih _) ?_
          simp only [List.map_cons, List.sum_cons]
          have he : sl - (s.lineCount + 1) = k := by omega
          rw [he]
          omega

/-- C5 counterexample: a three-line file scanned with a line cap of two
records a line count of three — the counter is incremented past the cap
before the break, and that value is returned. -/
theorem c5_counterexample :
    (scan_file ⟨"b.py", 3, [⟨1, none⟩, ⟨1, none⟩, ⟨1, none⟩]⟩ 512 99 2 1000).lineCount?
      = some 3
    ∧ ¬ (3 ≤ 2) := by
  decide

/-- C5 (amended): the recorded line count never exceeds the per-file line
cap plus one (the counter overshoots by exactly the increment that
triggers the break), and the bytes read come only from the first
max_scan_lines lines — scanning stops at the cap, and the overshooting
line contributes no bytes. -/
theorem c5_per_file_line_cap (f : PFile) (kb fb sl : Nat) (rem : Int) :
    (scan_file f kb fb sl rem).lineCount?.getD 0 ≤ sl + 1
    ∧ (scan_file f kb fb sl rem).bytesRead ≤ ((f.lines.take sl).map SrcLine.len).sum := by
  unfold scan_file
  split_ifs with h
  · simp
  · refine ⟨?_, ?_⟩
    · simpa using scanLoop_lineCount_le f.relPath sl fb rem f.lines
        ⟨0, 0, [], hasPatternTable f.relPath, false⟩ (Nat.zero_le sl)
    · simpa using scanLoop_bytes_le f.relPath sl fb rem f.lines
        ⟨0, 0, [], hasPatternTable f.relPath, false⟩

theorem scanLoop_symbols_le (relPath : String) (sl fb : Nat) (rem : Int) :
    ∀ (lines : List SrcLine) (s : ScanState),
      s.symbols.length ≤ MAX_SYMBOLS_PER_FILE →
      (s.collecting = true → s.symbols.length < MAX_SYMBOLS_PER_FILE) →
      (scanLoop relPath sl fb rem lines s).symbols.length ≤ MAX_SYMBOLS_PER_FILE := by
  intro lines
  induction lines with
  | nil => intro s h1 h2; simpa [scanLoop] using h1
  | cons ln ls ih =>
    intro s h1 h2
    unfold scanLoop
    split_ifs with hc1 hc2 hc3 hc4 hc5
    · simpa using h1
    · simpa using h1
    · simpa using h1
    · simpa using h1
    · exact ih _ (by simpa using h1) (by intro hcoll; simp at hcoll; rw [hcoll] at hc5; simp at hc5)
    · cases hsym : ln.sym? with
      | none => exact ih _ (by simpa using h1) (by intro hcoll; simpa using h2 (by simpa using hcoll))
      | some nk =>
        cases nk with
        | mk nm kd =>
          have hlt : s.symbols.length < MAX_SYMBOLS_PER_FILE := by
            refine h2 ?_
            cases hv : s.collecting with
            | false => exact absurd hv hc5
            | true => rfl
          refine ih _ ?_ ?_
          · simp
            omega
          · intro hcoll
            simp at hcoll
            simp
            omega

theorem scanLoop_counts_agree (relPath : String) (sl fb : Nat) (rem : Int) :
    ∀ (lines : List SrcLine) (s₁ s₂ : ScanState),
      s₁.lineCount = s₂.lineCount → s₁.bytesRead = s₂.bytesRead →
      s₁.truncated = s₂.truncated →
      (scanLoop relPath sl fb rem lines s₁).lineCount
        = (scanLoop relPath sl fb rem lines s₂).lineCount
      ∧ (scanLoop relPath sl fb rem lines s₁).bytesRead
        = (scanLoop relPath sl fb rem lines s₂).bytesRead
      ∧ (scanLoop relPath sl fb rem lines s₁).truncated
        = (scanLoop relPath sl fb rem lines s₂).truncated := by
  intro lines
  induction lines with
  | nil => intro s₁ s₂ e1 e2 e3; simp [scanLoop]; exact ⟨e1, e2, e3⟩
  | cons ln ls ih =>
    intro s₁ s₂ e1 e2 e3
    unfold scanLoop
    rw [e1, e2, e3]
    by_cases hc1 : sl < s₂.lineCount + 1
    · rw [if_pos hc1, if_pos hc1]
      exact ⟨rfl, rfl, rfl⟩
    · rw [if_neg hc1, if_neg hc1]
      by_cases hc2 : rem ≤ 0
      · rw [if_pos hc2, if_pos hc2]
        exact ⟨rfl, rfl, rfl⟩
      · rw [if_neg hc2, if_neg hc2]
        by_cases hc3 : fb < s₂.bytesRead + ln.len
        · rw [if_pos hc3, if_pos hc3]
          exact ⟨rfl, rfl, rfl⟩
        · rw [if_neg hc3, if_neg hc3]
          by_cases hc4 : rem < ((s₂.bytesRead + ln.len : Nat) : Int)
          · rw [if_pos hc4, if_pos hc4]
            exact ⟨rfl, rfl, rfl⟩
          · rw [if_neg hc4, if_neg hc4]
            by_cases h51 : s₁.collecting = false
            · rw [if_pos h51]
              by_cases h52 : s₂.collecting = false
              · rw [if_pos h52]
                exact ih _ _ rfl rfl rfl
              · rw [if_neg h52]
                cases hsym : ln.sym? with
                | none => exact ih _ _ rfl rfl rfl
                | some nk =>
                  obtain ⟨nm, kd⟩ := nk
                  exact ih _ _ rfl rfl rfl
            · rw [if_neg h51]
              by_cases h52 : s₂.collecting = false
              · rw [if_pos h52]
                cases hsym : ln.sym? with
                | none => exact ih _ _ rfl rfl rfl
                | some nk =>
                  obtain ⟨nm, kd⟩ := nk
                  exact ih _ _ rfl rfl rfl
              · rw [if_neg h52]
                cases hsym : ln.sym? with
                | none => exact ih _ _ rfl rfl rfl
                | some nk =>
                  obtain ⟨nm, kd⟩ := nk
                  exact ih _ _ rfl rfl rfl

/-- C10: a single file never yields more than MAX_SYMBOLS_PER_FILE (= 25)
symbols, a module constant independent of every command-line cap passed to
the scan; and the scan's line count, byte count and truncation flag are
the same as those of a run that never collects symbols at all — once the
cap clears the pattern table, line counting and byte accounting continue
unaffected. -/
theorem c10_per_file_symbol_cap (f : PFile) (kb fb sl : Nat) (rem : Int) :
    (scan_file f kb fb sl rem).symbols.length ≤ MAX_SYMBOLS_PER_FILE
    ∧ (scanLoop f.relPath sl fb rem f.lines ⟨0, 0, [], hasPatternTable f.relPath, false⟩).lineCount
        = (scanLoop f.relPath sl fb rem f.lines ⟨0, 0, [], false, false⟩).lineCount
    ∧ (scanLoop f.relPath sl fb rem f.lines ⟨0, 0, [], hasPatternTable f.relPath, false⟩).bytesRead
        = (scanLoop f.relPath sl fb rem f.lines ⟨0, 0, [], false, false⟩).bytesRead
    ∧ (scanLoop f.relPath sl fb rem f.lines ⟨0, 0, [], hasPatternTable f.relPath, false⟩).truncated
        = (scanLoop f.relPath sl fb rem f.lines ⟨0, 0, [], false, false⟩).truncated := by
  refine ⟨?_, scanLoop_counts_agree f.relPath sl fb rem f.lines _ _ rfl rfl rfl⟩
  unfold scan_file
  split_ifs with h
  · decide
  · exact scanLoop_symbols_le f.relPath sl fb rem f.lines _
      (by simp [MAX_SYMBOLS_PER_FILE]) (fun hc => by simp [MAX_SYMBOLS_PER_FILE])

/-- IMPORTANT_FILENAMES, repomap.py lines 56-75. -/
def IMPORTANT_FILENAMES : List String :=
  ["readme", "readme.md", "readme.rst", "readme.txt", "package.json",
   "pnpm-lock.yaml", "yarn.lock", "package-lock.json", "cargo.toml",
   "pyproject.toml", "requirements.txt", "setup.py", "tsconfig.json",
   "tsconfig.base.json", "tsconfig.app.json", "tsconfig.node.json",
   "config.yaml", "config.yml"]

/-- The should_scan test of the driver loop, repomap.py lines 601-608: a
registered pattern table, an important basename, or a markdown/yaml
extension. -/
def shouldScan (rel : String) : Bool :=
  hasPatternTable rel
  || IMPORTANT_FILENAMES.contains (lowerStr (basename rel))
  || [".md", ".yml", ".yaml"].contains (extLower rel)

/-- The driver's command-line caps used by the scan loop of main,
repomap.py lines 610-636. -/
structure Config where
  maxSymbols : Nat
  maxFileKB : Nat
  maxFileBytes : Nat
  maxScanLines : Nat
  maxTotalBytes : Nat
deriving DecidableEq

/-- The driver's symbol accumulation for one scanned file's batch,
repomap.py lines 629-636: skipped when already truncated or the batch is
empty; truncates when no capacity remains; otherwise extends by the batch
clipped to the remaining capacity and flags truncation at the cap. -/
def stepSymbols (maxSymbols : Nat) (cur : List Sym) (curTrunc : Bool)
    (batch : List Sym) : List Sym × Bool :=
  if curTrunc = false ∧ batch ≠ [] then
    if ((maxSymbols : Int) - (cur.length : Int)) ≤ 0 then (cur, true)
    else
      if maxSymbols ≤ (cur ++ batch.take ((maxSymbols : Int)
          - (cur.length : Int)).toNat).length then
        (cur ++ batch.take ((maxSymbols : Int) - (cur.length : Int)).toNat, true)
      else
        (cur ++ batch.take ((maxSymbols : Int) - (cur.length : Int)).toNat, false)
  else (cur, curTrunc)

/-- The ledger state threaded through the driver loop, repomap.py lines
580-585 (file_infos, which only feeds the ranker, is modelled separately
through score_file). -/
structure DriverState where
  totalBytes : Nat
  symbols : List Sym
  symbolsTruncated : Bool
  fileBytesTruncated : Bool
  totalBytesTruncated : Bool
  lineCounts : List (String × Nat)
deriving DecidableEq

/-- Observation record for one candidate file of the driver loop: whether
scan_file ran, the running total before it, the bytes it read and how many
symbols it emitted. -/
structure TraceEntry where
  path : String
  scanned : Bool
  totalBefore : Nat
  bytesRead : Nat
  emitted : Nat
deriving DecidableEq

/-- One iteration of the driver loop of main, repomap.py lines 587-636:
the scan gate (should_scan and a strictly positive remaining budget, line
610), the remaining-budget argument, the byte-ledger update and the two
truncation flags in source order, the line-count record, and the symbol
accumulation.  The stat call is modelled as always succeeding. -/
def driverStep (cfg : Config) (st : DriverState) (f : PFile) : DriverState × TraceEntry :=
  if shouldScan f.relPath = true ∧ st.totalBytes < cfg.maxTotalBytes then
    ({ totalBytes := st.totalBytes + (scan_file f cfg.maxFileKB cfg.maxFileBytes
        cfg.maxScanLines ((cfg.maxTotalBytes : Int) - (st.totalBytes : Int))).bytesRead
       symbols := (stepSymbols cfg.maxSymbols st.symbols st.symbolsTruncated
        (scan_file f cfg.maxFileKB cfg.maxFileBytes cfg.maxScanLines
          ((cfg.maxTotalBytes : Int) - (st.totalBytes : Int))).symbols).1
       symbolsTruncated := (stepSymbols cfg.maxSymbols st.symbols st.symbolsTruncated
        (scan_file f cfg.maxFileKB cfg.maxFileBytes cfg.maxScanLines
          ((cfg.maxTotalBytes : Int) - (st.totalBytes : Int))).symbols).2
       fileBytesTruncated :=
        if (scan_file f cfg.maxFileKB cfg.maxFileBytes cfg.maxScanLines
            ((cfg.maxTotalBytes : Int) - (st.totalBytes : Int))).truncated = true
            ∧ st.totalBytes + (scan_file f cfg.maxFileKB cfg.maxFileBytes cfg.maxScanLines
              ((cfg.maxTotalBytes : Int) - (st.totalBytes : Int))).bytesRead
              < cfg.maxTotalBytes
        then true else st.fileBytesTruncated
       totalBytesTruncated :=
        if cfg.maxTotalBytes ≤ st.totalBytes + (scan_file f cfg.maxFileKB cfg.maxFileBytes
            cfg.maxScanLines ((cfg.maxTotalBytes : Int) - (st.totalBytes : Int))).bytesRead
        then true else st.totalBytesTruncated
       lineCounts :=
        match (scan_file f cfg.maxFileKB cfg.maxFileBytes cfg.maxScanLines
            ((cfg.maxTotalBytes : Int) - (st.totalBytes : Int))).lineCount? with
        | some n => st.lineCounts ++ [(f.relPath, n)]
        | none => st.lineCounts },
     { path := f.relPath
       scanned := true
       totalBefore := st.totalBytes
       bytesRead := (scan_file f cfg.maxFileKB cfg.maxFileBytes cfg.maxScanLines
        ((cfg.maxTotalBytes : Int) - (st.totalBytes : Int))).bytesRead
       emitted := (scan_file f cfg.maxFileKB cfg.maxFileBytes cfg.maxScanLines
        ((cfg.maxTotalBytes : Int) - (st.totalBytes : Int))).symbols.length })
  else
    (st,
     { path := f.relPath
       scanned := false
       totalBefore := st.totalBytes
       bytesRead := 0
       emitted := 0 })

/-- The driver loop over the (already reordered) candidate list, with its
observation trace. -/
def runScan (cfg : Config) : List PFile → DriverState → DriverState × List TraceEntry
  | [], st => (st, [])
  | f :: fs, st =>
    ((runScan cfg fs (driverStep cfg st f).1).1,
      (driverStep cfg st f).2 :: (runScan cfg fs (driverStep cfg st f).1).2)

/-- The ledger's initial state, repomap.py lines 580-585. -/
def initDriverState : DriverState := ⟨0, [], false, false, false, []⟩

/-- A whole driver run from the initial ledger. -/
def runScanAll (cfg : Config) (files : List PFile) : DriverState × List TraceEntry :=
  runScan cfg files initDriverState

/-- The notes assembly of main, repomap.py lines 722-740, in source
order. -/
def mkNotes (treeTr symsTr filesTr fileBytesTr totalBytesTr : Bool)
    (topFilesLen maxTopFiles hotspotsLen maxHotspots : Nat)
    (gitignoreApplied gitHeadMissing : Bool) : List String :=
  (if treeTr then ["tree truncated"] else [])
  ++ (if symsTr then ["symbols truncated"] else [])
  ++ (if filesTr then ["files truncated"] else [])
  ++ (if fileBytesTr then ["file bytes truncated"] else [])
  ++ (if totalBytesTr then ["total bytes truncated"] else [])
  ++ (if maxTopFiles ≤ topFilesLen then ["top_files truncated"] else [])
  ++ (if maxHotspots ≤ hotspotsLen then ["hotspots truncated"] else [])
  ++ (if gitignoreApplied then [".gitignore patterns applied (basic)"] else [])
  ++ (if gitHeadMissing then ["git head unavailable"] else [])

theorem scan_file_bytes_le_cap (f : PFile) (kb fb sl : Nat) (rem : Int)
    (hwf : (f.lines.map SrcLine.len).sum ≤ f.size) :
    (scan_file f kb fb sl rem).bytesRead ≤ kb * 1024 := by
  unfold scan_file
  split_ifs with h
  · simp
  · have h1 := scanLoop_bytes_le f.relPath sl fb rem f.lines
      ⟨0, 0, [], hasPatternTable f.relPath, false⟩
    have h2 := sum_map_take_le f.lines (sl - 0)
    dsimp only at h1 ⊢
    omega

theorem runScan_total_le (cfg : Config) :
    ∀ (files : List PFile) (st : DriverState),
      (∀ f ∈ files, (f.lines.map SrcLine.len).sum ≤ f.size) →
      st.totalBytes ≤ cfg.maxTotalBytes + cfg.maxFileKB * 1024 →
      (runScan cfg files st).1.totalBytes ≤ cfg.maxTotalBytes + cfg.maxFileKB * 1024 := by
  intro files
  induction files with
  | nil => intro st _ h; simpa [runScan] using h
  | cons f fs ih =>
    intro st hwf hst
    unfold runScan
    dsimp only
    apply ih _ (fun g hg => hwf g (List.mem_cons_of_mem f hg))
    unfold driverStep
    by_cases h : shouldScan f.relPath = true ∧ st.totalBytes < cfg.maxTotalBytes
    · rw [if_pos h]
      dsimp only
      have hb := scan_file_bytes_le_cap f cfg.maxFileKB cfg.maxFileBytes cfg.maxScanLines
        ((cfg.maxTotalBytes : Int) - (st.totalBytes : Int)) (hwf f (by simp))
      have hlt : st.totalBytes < cfg.maxTotalBytes := h.2
      omega
    · rw [if_neg h]
      exact hst

theorem runScan_scanned_before_cap (cfg : Config) :
    ∀ (files : List PFile) (st : DriverState),
      ∀ e ∈ (runScan cfg files st).2, e.scanned = true →
        e.totalBefore < cfg.maxTotalBytes := by
  intro files
  induction files with
  | nil => intro st e he; simp [runScan] at he
  | cons f fs ih =>
    intro st e he hsc
    unfold runScan at he
    dsimp only at he
    rcases List.mem_cons.mp he with rfl | hmem
    · unfold driverStep at hsc ⊢
      by_cases h : shouldScan f.relPath = true ∧ st.totalBytes < cfg.maxTotalBytes
      · rw [if_pos h]
        exact h.2
      · rw [if_neg h] at hsc
        dsimp only at hsc
        cases hsc
    · exact ih _ e hmem hsc

/-- C1 counterexample: total cap 10 and per-file byte cap 5, one scanned
two-line file whose breaking line is 100 bytes: the whole line is counted
before the cap checks run, so the run's totalBytesConsumed is 104, above
totalBytesCap + perFileByteCap = 15. -/
theorem c1_counterexample :
    (runScanAll ⟨200, 1, 5, 100, 10⟩ [⟨"a.py", 104, [⟨4, none⟩, ⟨100, none⟩]⟩]).1.totalBytes
      = 104
    ∧ ¬ ((runScanAll ⟨200, 1, 5, 100, 10⟩
        [⟨"a.py", 104, [⟨4, none⟩, ⟨100, none⟩]⟩]).1.totalBytes
          ≤ (10 : Nat) + 5) := by
  decide

/-- C1 (amended): for every run over files whose summed encoded line
lengths fit their stat size (true of real files), totalBytesConsumed is at
most the total-byte cap plus one file's size cap maxFileKB * 1024 (the
overrun is one scanned file's read, bounded by that file's size, not by
the per-file byte cap, which a single long line can exceed); and a file
is scanned only while the running total is strictly below the total-byte
cap. -/
theorem c1_budget_monotonicity (cfg : Config) (files : List PFile)
    (hwf : ∀ f ∈ files, (f.lines.map SrcLine.len).sum ≤ f.size) :
    (runScanAll cfg files).1.totalBytes ≤ cfg.maxTotalBytes + cfg.maxFileKB * 1024
    ∧ ∀ e ∈ (runScanAll cfg files).2, e.scanned = true →
        e.totalBefore < cfg.maxTotalBytes :=
  ⟨runScan_total_le cfg files initDriverState hwf (Nat.zero_le _),
   fun e he => runScan_scanned_before_cap cfg files initDriverState e he⟩

/-- Witness for C1 at the counterexample run: the amended bound holds
there (104 is within 10 + 1024). -/
theorem c1_witness :
    (runScanAll ⟨200, 1, 5, 100, 10⟩
      [⟨"a.py", 104, [⟨4, none⟩, ⟨100, none⟩]⟩]).1.totalBytes ≤ 10 + 1 * 1024 :=
  (c1_budget_monotonicity ⟨200, 1, 5, 100, 10⟩
    [⟨"a.py", 104, [⟨4, none⟩, ⟨100, none⟩]⟩] (by decide)).1

theorem stepSymbols_len_le (maxS : Nat) (cur : List Sym) (tr : Bool) (batch : List Sym)
    (h : cur.length ≤ maxS) :
    (stepSymbols maxS cur tr batch).1.length ≤ maxS := by
  unfold stepSymbols
  split_ifs with h1 h2 h3
  · exact h
  · simp only [List.length_append, List.length_take]
    omega
  · simp only [List.length_append, List.length_take]
    omega
  · exact h

theorem stepSymbols_count (maxS : Nat) (cur : List Sym) (tr : Bool) (batch : List Sym) :
    (stepSymbols maxS cur tr batch).2 = false →
      tr = false ∧ (stepSymbols maxS cur tr batch).1.length = cur.length + batch.length := by
  unfold stepSymbols
  split_ifs with h1 h2 h3
  · intro hf
    cases hf
  · intro hf
    cases hf
  · intro _
    refine ⟨h1.1, ?_⟩
    dsimp only
    simp only [List.length_append, List.length_take] at h3 ⊢
    omega
  · intro hf
    refine ⟨hf, ?_⟩
    have hb : batch = [] := by
      by_contra hb
      exact h1 ⟨hf, hb⟩
    rw [hb]
    simp

theorem runScan_symbols_inv (cfg : Config) :
    ∀ (files : List PFile) (st : DriverState),
      st.symbols.length ≤ cfg.maxSymbols →
      (runScan cfg files st).1.symbols.length ≤ cfg.maxSymbols
      ∧ ((runScan cfg files st).1.symbolsTruncated = false →
          st.symbolsTruncated = false
          ∧ (runScan cfg files st).1.symbols.length
            = st.symbols.length + ((runScan cfg files st).2.map TraceEntry.emitted).sum) := by
  intro files
  induction files with
  | nil =>
    intro st h
    refine ⟨by simpa [runScan] using h, ?_⟩
    intro hf
    simp [runScan] at hf ⊢
    exact hf
  | cons f fs ih =>
    intro st h
    unfold runScan
    dsimp only
    have hstep_le : (driverStep cfg st f).1.symbols.length ≤ cfg.maxSymbols := by
      unfold driverStep
      by_cases hg : shouldScan f.relPath = true ∧ st.totalBytes < cfg.maxTotalBytes
      · rw [if_pos hg]
        exact stepSymbols_len_le _ _ _ _ h
      · rw [if_neg hg]
        exact h
    obtain ⟨ih1, ih2⟩ := ih (driverStep cfg st f).1 hstep_le
    refine ⟨ih1, ?_⟩
    intro hf
    obtain ⟨hstep_tr, hlen⟩ := ih2 hf
    rw [List.map_cons, List.sum_cons]
    unfold driverStep at hstep_tr hlen ⊢
    by_cases hg : shouldScan f.relPath = true ∧ st.totalBytes < cfg.maxTotalBytes
    · rw [if_pos hg] at hstep_tr hlen ⊢
      dsimp only at hstep_tr hlen ⊢
      obtain ⟨htr0, hcnt⟩ := stepSymbols_count cfg.maxSymbols st.symbols
        st.symbolsTruncated _ hstep_tr
      exact ⟨htr0, by omega⟩
    · rw [if_neg hg] at hstep_tr hlen ⊢
      dsimp only at hstep_tr hlen ⊢
      exact ⟨hstep_tr, by omega⟩

/-- C7 (amended): the driver's collected symbol list never exceeds
maxSymbols; whenever the number of symbols emitted by the scanner across
the run's scanned files (already subject to the per-file symbol, byte and
line caps) exceeds maxSymbols, the symbols-truncated flag is set; and a
set flag puts the symbols-truncated marker into the notes list. -/
theorem c7_symbol_cap (cfg : Config) (files : List PFile) :
    (runScanAll cfg files).1.symbols.length ≤ cfg.maxSymbols
    ∧ (cfg.maxSymbols < ((runScanAll cfg files).2.map TraceEntry.emitted).sum →
        (runScanAll cfg files).1.symbolsTruncated = true)
    ∧ (∀ (tt ft fbt tbt : Bool) (ntf mtf nh mh : Nat) (gi gm : Bool),
        (runScanAll cfg files).1.symbolsTruncated = true →
        ("symbols truncated") ∈ mkNotes tt ((runScanAll cfg files).1.symbolsTruncated)
          ft fbt tbt ntf mtf nh mh gi gm) := by
  obtain ⟨h1, h2⟩ := runScan_symbols_inv cfg files initDriverState
    (by simp [initDriverState])
  refine ⟨h1, ?_, ?_⟩
  · intro hgt
    cases hv : (runScanAll cfg files).1.symbolsTruncated with
    | true => rfl
    | false =>
      obtain ⟨_, hlen⟩ := h2 hv
      exfalso
      have h0 : initDriverState.symbols.length = 0 := rfl
      have h1' : (runScanAll cfg files).1.symbols.length ≤ cfg.maxSymbols := h1
      simp only [runScanAll] at hgt hv h1'
      omega
  · intro tt ft fbt tbt ntf mtf nh mh gi gm hfl
    rw [hfl]
    simp [mkNotes]

/-- The true symbol count of the tree under the repomap pattern grammar:
the number of pattern-matching lines over all files whose extension has a
pattern table, before any per-file or global cap applies. -/
def trueSymbolCount (files : List PFile) : Nat :=
  (files.map (fun f =>
    if hasPatternTable f.relPath = true
    then f.lines.countP (fun ln => ln.sym?.isSome) else 0)).sum

/-- C7 counterexample: a single Python file with 30 symbol-bearing lines
scanned under maxSymbols = 28: the per-file cap stops collection at 25, so
the output holds 25 symbols, the truncation flag stays unset and the notes
carry no symbols-truncated marker, although the true symbol count in the
tree (30) exceeds maxSymbols. -/
theorem c7_counterexample :
    (⟨28, 512, 524288, 4000, 20971520⟩ : Config).maxSymbols
      < trueSymbolCount [⟨"a.py", 30, List.replicate 30 ⟨1, some ("f", "func")⟩⟩]
    ∧ (runScanAll ⟨28, 512, 524288, 4000, 20971520⟩
        [⟨"a.py", 30, List.replicate 30 ⟨1, some ("f", "func")⟩⟩]).1.symbols.length = 25
    ∧ (runScanAll ⟨28, 512, 524288, 4000, 20971520⟩
        [⟨"a.py", 30, List.replicate 30 ⟨1, some ("f", "func")⟩⟩]).1.symbolsTruncated = false
    ∧ ("symbols truncated") ∉ mkNotes false
        ((runScanAll ⟨28, 512, 524288, 4000, 20971520⟩
          [⟨"a.py", 30, List.replicate 30 ⟨1, some ("f", "func")⟩⟩]).1.symbolsTruncated)
        false false false 0 50 0 20 true false := by
  decide

/-- Witness for C7: a run whose emitted symbol count (5) exceeds the cap
(3) does set the truncation flag. -/
theorem c7_witness :
    (runScanAll ⟨3, 512, 524288, 4000, 20971520⟩
      [⟨"b.py", 5, List.replicate 5 ⟨1, some ("g", "func")⟩⟩]).1.symbolsTruncated = true :=
  (c7_symbol_cap ⟨3, 512, 524288, 4000, 20971520⟩
    [⟨"b.py", 5, List.replicate 5 ⟨1, some ("g", "func")⟩⟩]).2.1 (by decide)

/-- ENTRYPOINT_FILENAMES, repomap.py lines 77-90. -/
def ENTRYPOINT_FILENAMES : List String :=
  ["main.ts", "main.tsx", "main.js", "main.jsx", "index.ts", "index.tsx",
   "index.js", "index.jsx", "app.ts", "app.tsx", "app.js", "app.jsx"]

/-- The likely-important path segment tokens tested at repomap.py lines
665-674 (and again for hotspots at lines 707-718). -/
def CORE_PATH_TOKENS : List String :=
  ["/src/", "/sources/", "/core/", "/services/", "/plugins/"]

/-- score_file, repomap.py lines 651-682: score and reason are threaded in
source order — important basename (config), readme prefix (readme),
entrypoint basename (entrypoint, unconditional but disjoint from the
earlier sets), core path token (core only when the reason is still other),
then the line-count bonus whose 400-line branch assigns reason large
unconditionally.  line_counts is the scanned line-count lookup of the
run. -/
def score_file (line_counts : String → Option Nat) (path : String) : Nat × String :=
  let base := lowerStr (basename path)
  let sr1 : Nat × String :=
    if IMPORTANT_FILENAMES.contains base = true then (100, "config") else (0, "other")
  let sr2 : Nat × String :=
    if startsWithB base ("readme") = true then (sr1.1 + 120, "readme") else sr1
  let sr3 : Nat × String :=
    if ENTRYPOINT_FILENAMES.contains base = true then (sr2.1 + 60, "entrypoint") else sr2
  let sr4 : Nat × String :=
    if CORE_PATH_TOKENS.any (fun t => containsTok (lowerStr ("/" ++ path)) t) = true then
      (sr3.1 + 15, if sr3.2 == "other" then "core" else sr3.2)
    else sr3
  match line_counts path with
  | some n => (sr4.1 + min (n / 50) 40, if 400 ≤ n then "large" else sr4.2)
  | none => sr4

theorem startsWith_readme_not_entrypoint (b : String)
    (h : startsWithB b ("readme") = true) : ENTRYPOINT_FILENAMES.contains b = false := by
  cases hmem : ENTRYPOINT_FILENAMES.contains b with
  | false => rfl
  | true =>
    exfalso
    have hb : b ∈ ENTRYPOINT_FILENAMES := by
      simpa using hmem
    simp only [ENTRYPOINT_FILENAMES, List.mem_cons, List.not_mem_nil, or_false] at hb
    rcases hb with rfl | rfl | rfl | rfl | rfl | rfl | rfl | rfl | rfl | rfl | rfl | rfl <;>
      exact absurd h (by decide)

theorem important_not_entrypoint (b : String)
    (h : IMPORTANT_FILENAMES.contains b = true) : ENTRYPOINT_FILENAMES.contains b = false := by
  have hb : b ∈ IMPORTANT_FILENAMES := by
    simpa using h
  simp only [IMPORTANT_FILENAMES, List.mem_cons, List.not_mem_nil, or_false] at hb
  rcases hb with rfl | rfl | rfl | rfl | rfl | rfl | rfl | rfl | rfl | rfl | rfl | rfl | rfl
    | rfl | rfl | rfl | rfl | rfl <;> decide

/-- C2 counterexample: readme.md with a recorded line count of 400 earns
the readme reason first, yet score_file reports reason large — the
400-line branch overwrites every reason, readme and config included. -/
theorem c2_counterexample :
    (score_file (fun p => if p == "readme.md" then some 400 else none) ("readme.md")).2
      = "large"
    ∧ startsWithB (lowerStr (basename ("readme.md"))) ("readme") = true
    ∧ IMPORTANT_FILENAMES.contains (lowerStr (basename ("readme.md"))) = true
    ∧ ("large" : String) ≠ "readme"
    ∧ ("large" : String) ≠ "config" := by
  decide

/-- C2 (amended): whenever the file has a recorded line count of at least
400, the reported reason is large, whatever reason was earned before —
the forced large reason replaces readme and config as well; readme and
config survive exactly when the line count is below 400 or absent. -/
theorem c2_reason_precedence (line_counts : String → Option Nat) (path : String) :
    (∀ n, line_counts path = some n → 400 ≤ n →
      (score_file line_counts path).2 = "large")
    ∧ (startsWithB (lowerStr (basename path)) ("readme") = true →
        (∀ n, line_counts path = some n → n < 400) →
        (score_file line_counts path).2 = "readme")
    ∧ (IMPORTANT_FILENAMES.contains (lowerStr (basename path)) = true →
        startsWithB (lowerStr (basename path)) ("readme") = false →
        (∀ n, line_counts path = some n → n < 400) →
        (score_file line_counts path).2 = "config") := by
  refine ⟨?_, ?_, ?_⟩
  · intro n hn h400
    unfold score_file
    rw [hn]
    dsimp only
    rw [if_pos h400]
  · intro hsw hlt
    unfold score_file
    have hE := startsWith_readme_not_entrypoint _ hsw
    dsimp only
    rw [if_pos hsw, hE]
    simp only [Bool.false_eq_true, if_false]
    by_cases hC : CORE_PATH_TOKENS.any
        (fun t => containsTok (lowerStr (("/") ++ path)) t) = true
    · rw [if_pos hC]
      dsimp only
      rw [if_neg (by decide : ¬ (("readme" : String) == "other") = true)]
      cases hm : line_counts path with
      | none => rfl
      | some n =>
        dsimp only
        have := hlt n hm
        rw [if_neg (by omega : ¬ (400 ≤ n))]
    · rw [if_neg hC]
      cases hm : line_counts path with
      | none => rfl
      | some n =>
        dsimp only
        have := hlt n hm
        rw [if_neg (by omega : ¬ (400 ≤ n))]
  · intro hI hsw hlt
    unfold score_file
    have hE := important_not_entrypoint _ hI
    dsimp only
    rw [if_pos hI, hsw, hE]
    simp only [Bool.false_eq_true, if_false]
    by_cases hC : CORE_PATH_TOKENS.any
        (fun t => containsTok (lowerStr (("/") ++ path)) t) = true
    · rw [if_pos hC]
      dsimp only
      rw [if_neg (by decide : ¬ (("config" : String) == "other") = true)]
      cases hm : line_counts path with
      | none => rfl
      | some n =>
        dsimp only
        have := hlt n hm
        rw [if_neg (by omega : ¬ (400 ≤ n))]
    · rw [if_neg hC]
      cases hm : line_counts path with
      | none => rfl
      | some n =>
        dsimp only
        have := hlt n hm
        rw [if_neg (by omega : ¬ (400 ≤ n))]

/-- Witness for C2: a 450-line readme under a directory is reported with
reason large by the amended precedence. -/
theorem c2_witness :
    (score_file (fun p => if p == "x/readme.md" then some 450 else none)
      ("x/readme.md")).2 = "large" :=
  (c2_reason_precedence (fun p => if p == "x/readme.md" then some 450 else none)
    ("x/readme.md")).1 450 (by decide) (by decide)

/-- EXT_SCAN_PRIORITY, repomap.py lines 114-130. -/
def EXT_SCAN_PRIORITY : List (String × Nat) :=
  [(".swift", 0), (".ts", 1), (".tsx", 1), (".js", 2), (".jsx", 2), (".py", 3),
   (".rs", 4), (".go", 5), (".java", 6), (".kt", 6), (".md", 7), (".yml", 8),
   (".yaml", 8), (".toml", 9), (".json", 10)]

/-- group_key, repomap.py lines 489-490: the first path segment. -/
def group_key (rel : String) : String := (pathSegs rel).headD rel

/-- The numeric component of ext_priority, repomap.py lines 492-494 (its
tuple's second component rel_path is folded into the sort key below, as
at lines 523-528 only component 0 of ext_priority is used). -/
def ext_priority (rel : String) : Nat :=
  (EXT_SCAN_PRIORITY.lookup (extLower rel)).getD 100

/-- The architecturally significant name tokens of name_priority,
repomap.py lines 498-511. -/
def NAME_PRIORITY_TOKENS : List String :=
  ["orchestrator", "sherpa", "skillkit", "workflowpack", "workflow", "skill",
   "registry", "executor", "planner", "provider", "session", "manager"]

/-- name_priority, repomap.py lines 496-515: the index of the first token
contained in the lowered basename, or len(tokens) + 1. -/
def name_priority (rel : String) : Nat :=
  match NAME_PRIORITY_TOKENS.findIdx? (fun t => containsTok (lowerStr (basename rel)) t) with
  | some i => i
  | none => NAME_PRIORITY_TOKENS.length + 1

/-- Boolean lexicographic order on character lists by code point,
modelling Python string comparison. -/
def charListLE : List Char → List Char → Bool
  | [], _ => true
  | _ :: _, [] => false
  | a :: as, b :: bs => if a = b then charListLE as bs else decide (a < b)

/-- The within-group sort key comparison of repomap.py lines 522-529: the
tuple (extension priority, name priority, path), compared lexicographically
as Python compares key tuples. -/
def scanKeyLE (a b : String × String) : Bool :=
  if ext_priority a.1 ≠ ext_priority b.1 then decide (ext_priority a.1 < ext_priority b.1)
  else if name_priority a.1 ≠ name_priority b.1 then
    decide (name_priority a.1 < name_priority b.1)
  else charListLE a.1.data b.1.data

/-- Python list.sort with the key of lines 522-529, modelled as a stable
insertion sort (Python's sort is stable, and stable sorts under the same
total preorder agree). -/
def sortGroup (l : List (String × String)) : List (String × String) :=
  List.insertionSort (fun a b => scanKeyLE a b = true) l

/-- String order by code points, for sorted(grouped.keys()). -/
def strLEB (a b : String) : Bool := charListLE a.data b.data

/-- sorted(grouped.keys()), repomap.py line 521: the distinct group keys
in ascending order (a dict's key set sorted; insertion order is washed
out by the sort). -/
def groupKeys (files : List (String × String)) : List String :=
  List.insertionSort (fun a b => strLEB a b = true)
    ((files.map (fun it => group_key it.1)).dedup)

/-- One key's group in input order (the dict setdefault grouping of
repomap.py lines 517-519). -/
def groupOf (files : List (String × String)) (k : String) : List (String × String) :=
  files.filter (fun it => group_key it.1 == k)

/-- The per-key sorted groups, in sorted key order. -/
def sortedGroups (files : List (String × String)) : List (List (String × String)) :=
  (groupKeys files).map (fun k => sortGroup (groupOf files k))

theorem sum_len_tail_le {α : Type} (gs : List (List α)) :
    ((gs.map List.tail).map List.length).sum ≤ (gs.map List.length).sum := by
  induction gs with
  | nil => simp
  | cons g rest ih =>
    simp only [List.map_cons, List.sum_cons]
    have hg : g.tail.length ≤ g.length := by cases g <;> simp
    omega

theorem sum_len_tail_lt {α : Type} (gs : List (List α))
    (h : gs.all List.isEmpty = false) :
    ((gs.map List.tail).map List.length).sum < (gs.map List.length).sum := by
  induction gs with
  | nil => simp at h
  | cons g rest ih =>
    simp only [List.all_cons, Bool.and_eq_false_iff] at h
    simp only [List.map_cons, List.sum_cons]
    rcases h with h | h
    · have hg : g.tail.length < g.length := by
        cases g with
        | nil => simp at h
        | cons a as => simp
      have := sum_len_tail_le rest
      omega
    · have := ih h
      have hg : g.tail.length ≤ g.length := by cases g <;> simp
      omega

/-- The round-robin interleave of reorder_files_for_scan, repomap.py lines
531-543: each pass of the while loop appends, for every key in order, the
group's element at its index and advances that index — the head of the
group's remaining suffix — and the loop ends when no group progressed,
i.e. when every suffix is empty. -/
def roundRobin {α : Type} : List (List α) → List α
  | gs =>
    if gs.all List.isEmpty = true then []
    else gs.filterMap List.head? ++ roundRobin (gs.map List.tail)
termination_by gs => (gs.map List.length).sum
decreasing_by
  exact sum_len_tail_lt gs (by simpa using (by assumption : ¬ gs.all List.isEmpty = true))

/-- reorder_files_for_scan, repomap.py lines 480-545: group by top-level
segment, sort each group, interleave round-robin over the sorted keys. -/
def reorder_files_for_scan (files : List (String × String)) : List (String × String) :=
  roundRobin (sortedGroups files)

/-- The longest group length: the number of round-robin passes. -/
def maxGroupLen {α : Type} (gs : List (List α)) : Nat :=
  (gs.map List.length).foldr max 0

theorem maxGroupLen_eq_zero_iff {α : Type} (gs : List (List α)) :
    maxGroupLen gs = 0 ↔ gs.all List.isEmpty = true := by
  induction gs with
  | nil => simp [maxGroupLen]
  | cons g rest ih =>
    simp only [maxGroupLen, List.map_cons, List.foldr_cons, List.all_cons,
      Bool.and_eq_true, List.isEmpty_iff, Nat.max_eq_zero_iff] at *
    constructor
    · rintro ⟨h1, h2⟩
      exact ⟨List.length_eq_zero.mp h1, ih.mp h2⟩
    · rintro ⟨h1, h2⟩
      exact ⟨List.length_eq_zero.mpr h1, ih.mpr h2⟩

theorem maxGroupLen_tail {α : Type} (gs : List (List α)) :
    maxGroupLen (gs.map List.tail) = maxGroupLen gs - 1 := by
  induction gs with
  | nil => simp [maxGroupLen]
  | cons g rest ih =>
    simp only [maxGroupLen, List.map_cons, List.foldr_cons] at *
    have hg : g.tail.length = g.length - 1 := by cases g <;> simp
    omega

theorem mem_le_maxGroupLen {α : Type} (gs : List (List α)) (g : List α) (hg : g ∈ gs) :
    g.length ≤ maxGroupLen gs := by
  induction gs with
  | nil => simp at hg
  | cons a rest ih =>
    rcases List.mem_cons.mp hg with rfl | h
    · simp only [maxGroupLen, List.map_cons, List.foldr_cons]
      omega
    · have := ih h
      simp only [maxGroupLen, List.map_cons, List.foldr_cons] at *
      omega

theorem roundRobin_eq_rounds_aux {α : Type} : ∀ (n : Nat) (gs : List (List α)),
    maxGroupLen gs = n →
    roundRobin gs
      = ((List.range n).map (fun r => gs.filterMap (fun g => g[r]?))).flatten := by
  intro n
  induction n with
  | zero =>
    intro gs h0
    rw [roundRobin]
    rw [if_pos ((maxGroupLen_eq_zero_iff gs).mp h0)]
    simp
  | succ n ih =>
    intro gs hn
    rw [roundRobin]
    have hne : gs.all List.isEmpty = false := by
      cases hv : gs.all List.isEmpty
      · rfl
      · exfalso
        have := (maxGroupLen_eq_zero_iff gs).mpr hv
        omega
    rw [if_neg (by simp [hne])]
    have htail : maxGroupLen (gs.map List.tail) = n := by
      rw [maxGroupLen_tail, hn]
      rfl
    rw [ih (gs.map List.tail) htail]
    rw [List.range_succ_eq_map, List.map_cons, List.flatten_cons]
    congr 1
    · have hfg : (List.head? : List α → Option α) = (fun g : List α => g[0]?) := by
        funext g
        cases g <;> simp
      rw [hfg]
    · rw [List.map_map]
      congr 1
      apply List.map_congr_left
      intro r hr
      show List.filterMap (fun g => g[r]?) (gs.map List.tail)
        = List.filterMap (fun g => g[r + 1]?) gs
      rw [List.filterMap_map]
      show List.filterMap (fun g : List α => g.tail[r]?) gs
        = List.filterMap (fun g => g[r + 1]?) gs
      have hfg : (fun g : List α => g.tail[r]?) = (fun g : List α => g[r + 1]?) := by
        funext g
        cases g <;> simp
      rw [hfg]

theorem roundRobin_eq_rounds {α : Type} (gs : List (List α)) :
    roundRobin gs
      = ((List.range (maxGroupLen gs)).map
          (fun r => gs.filterMap (fun g => g[r]?))).flatten :=
  roundRobin_eq_rounds_aux (maxGroupLen gs) gs rfl

theorem flatten_toList_take {α : Type} (g : List α) (n : Nat) :
    ((List.range n).map (fun r => (g[r]?).toList)).flatten = g.take n := by
  induction n with
  | zero => simp
  | succ n ih =>
    rw [List.range_succ, List.map_append, List.flatten_append, ih]
    rw [List.take_succ]
    simp

theorem filter_filterMap_getElem {α : Type} (p : α → Bool) (A B : List (List α))
    (g : List α) (r : Nat)
    (hgp : ∀ x ∈ g, p x = true)
    (hA : ∀ g2 ∈ A, ∀ x ∈ g2, p x = false)
    (hB : ∀ g2 ∈ B, ∀ x ∈ g2, p x = false) :
    ((A ++ g :: B).filterMap (fun g2 => g2[r]?)).filter p = (g[r]?).toList := by
  have hnil : ∀ (C : List (List α)), (∀ g2 ∈ C, ∀ x ∈ g2, p x = false) →
      (C.filterMap (fun g2 => g2[r]?)).filter p = [] := by
    intro C hC
    rw [List.filter_eq_nil_iff]
    intro x hx
    rw [List.mem_filterMap] at hx
    obtain ⟨g2, hg2, hget⟩ := hx
    rw [hC g2 hg2 x (List.getElem?_mem hget)]
    simp
  rw [List.filterMap_append, List.filter_append, hnil A hA]
  rw [List.filterMap_cons]
  cases hg : g[r]? with
  | none =>
    rw [hnil B hB]
    simp
  | some x =>
    dsimp only
    rw [List.filter_cons]
    rw [if_pos (hgp x (List.getElem?_mem hg))]
    rw [hnil B hB]
    simp

theorem roundRobin_filter {α : Type} (p : α → Bool) (A B : List (List α)) (g : List α)
    (hgp : ∀ x ∈ g, p x = true)
    (hA : ∀ g2 ∈ A, ∀ x ∈ g2, p x = false)
    (hB : ∀ g2 ∈ B, ∀ x ∈ g2, p x = false) :
    (roundRobin (A ++ g :: B)).filter p = g := by
  rw [roundRobin_eq_rounds, List.filter_flatten, List.map_map]
  have hfun : ∀ r ∈ List.range (maxGroupLen (A ++ g :: B)),
      (List.filter p ∘ (fun r => (A ++ g :: B).filterMap (fun g2 => g2[r]?))) r
        = (g[r]?).toList := by
    intro r hr
    exact filter_filterMap_getElem p A B g r hgp hA hB
  rw [List.map_congr_left hfun, flatten_toList_take]
  exact List.take_of_length_le (mem_le_maxGroupLen _ g (by simp))

theorem groupKeys_nodup (files : List (String × String)) : (groupKeys files).Nodup :=
  ((List.perm_insertionSort _ _).nodup_iff).mpr (List.nodup_dedup _)

theorem group_key_mem_groupKeys (files : List (String × String))
    (it : String × String) (h : it ∈ files) : group_key it.1 ∈ groupKeys files := by
  unfold groupKeys
  rw [(List.perm_insertionSort _ _).mem_iff, List.mem_dedup]
  exact List.mem_map_of_mem _ h

theorem mem_sortGroup_key (files : List (String × String)) (k : String)
    (x : String × String) (hx : x ∈ sortGroup (groupOf files k)) :
    group_key x.1 = k := by
  unfold sortGroup at hx
  rw [(List.perm_insertionSort _ _).mem_iff] at hx
  unfold groupOf at hx
  rw [List.mem_filter] at hx
  exact beq_iff_eq.mp hx.2

/-- C6: the scan order equals the concatenation of the round-robin rounds
over the per-key sorted groups in sorted key order — round r holds the
(r+1)-th file of every group that still has one, in ascending key order,
so one file of every group is placed before any group's second file, for
as many rounds as candidates remain; and the output's subsequence
belonging to any one group is exactly that group's files sorted by
extension priority, then name-token priority, then path. -/
theorem c6_scheduler_fairness (files : List (String × String)) :
    reorder_files_for_scan files
      = ((List.range (maxGroupLen (sortedGroups files))).map
          (fun r => (sortedGroups files).filterMap (fun g => g[r]?))).flatten
    ∧ ∀ k ∈ groupKeys files,
        (reorder_files_for_scan files).filter (fun it => group_key it.1 == k)
          = sortGroup (groupOf files k) := by
  constructor
  · exact roundRobin_eq_rounds (sortedGroups files)
  · intro k hk
    obtain ⟨A', B', hsplit⟩ := List.append_of_mem hk
    have hnd : (groupKeys files).Nodup := groupKeys_nodup files
    rw [hsplit] at hnd
    have hkA : ∀ k' ∈ A', k' ≠ k := by
      intro k' hk' he
      subst he
      exact (List.disjoint_of_nodup_append hnd) hk' (by simp)
    have hkB : ∀ k' ∈ B', k' ≠ k := by
      intro k' hk' he
      subst he
      have := (List.nodup_append.mp hnd).2.1
      exact (List.nodup_cons.mp this).1 hk'
    have hshape : sortedGroups files
        = A'.map (fun k' => sortGroup (groupOf files k'))
          ++ sortGroup (groupOf files k)
            :: B'.map (fun k' => sortGroup (groupOf files k')) := by
      unfold sortedGroups
      rw [hsplit, List.map_append, List.map_cons]
    unfold reorder_files_for_scan
    rw [hshape]
    apply roundRobin_filter
    · intro x hx
      rw [beq_iff_eq]
      exact mem_sortGroup_key files k x hx
    · intro g2 hg2 x hx
      rw [List.mem_map] at hg2
      obtain ⟨k', hk', rfl⟩ := hg2
      rw [beq_eq_false_iff_ne]
      rw [mem_sortGroup_key files k' x hx]
      exact hkA k' hk'
    · intro g2 hg2 x hx
      rw [List.mem_map] at hg2
      obtain ⟨k', hk', rfl⟩ := hg2
      rw [beq_eq_false_iff_ne]
      rw [mem_sortGroup_key files k' x hx]
      exact hkB k' hk'

/-- Witness for C6: in a two-group candidate list, the output's
a-subsequence is the sorted a-group. -/
theorem c6_witness :
    (reorder_files_for_scan [("a/x.py", "A"), ("b/y.py", "B")]).filter
        (fun it => group_key it.1 == "a")
      = sortGroup (groupOf [("a/x.py", "A"), ("b/y.py", "B")] ("a")) :=
  (c6_scheduler_fairness [("a/x.py", "A"), ("b/y.py", "B")]).2 ("a") (by decide)

theorem flatten_perm_heads_tails {α : Type} : ∀ (gs : List (List α)),
    List.Perm gs.flatten (gs.filterMap List.head? ++ (gs.map List.tail).flatten) := by
  intro gs
  induction gs with
  | nil => simp
  | cons g rest ih =>
    cases g with
    | nil =>
      simpa using ih
    | cons a as =>
      simp only [List.flatten_cons, List.filterMap_cons, List.head?_cons,
        List.map_cons, List.tail_cons]
      rw [List.cons_append, List.cons_append]
      apply List.Perm.cons
      have h1 : List.Perm (as ++ rest.flatten)
          (as ++ (rest.filterMap List.head? ++ (rest.map List.tail).flatten)) :=
        List.Perm.append_left as ih
      have h2 : List.Perm
          (as ++ (rest.filterMap List.head? ++ (rest.map List.tail).flatten))
          (rest.filterMap List.head? ++ (as ++ (rest.map List.tail).flatten)) := by
        rw [← List.append_assoc, ← List.append_assoc]
        exact List.Perm.append_right _ List.perm_append_comm
      exact h1.trans h2

theorem roundRobin_perm_flatten_aux {α : Type} : ∀ (n : Nat) (gs : List (List α)),
    maxGroupLen gs = n → List.Perm (roundRobin gs) gs.flatten := by
  intro n
  induction n with
  | zero =>
    intro gs h0
    rw [roundRobin, if_pos ((maxGroupLen_eq_zero_iff gs).mp h0)]
    have : gs.flatten = [] := by
      have hall := (maxGroupLen_eq_zero_iff gs).mp h0
      rw [List.flatten_eq_nil_iff]
      intro l hl
      rw [List.all_eq_true] at hall
      simpa using hall l hl
    rw [this]
  | succ n ih =>
    intro gs hn
    rw [roundRobin]
    have hne : gs.all List.isEmpty = false := by
      cases hv : gs.all List.isEmpty
      · rfl
      · exfalso
        have := (maxGroupLen_eq_zero_iff gs).mpr hv
        omega
    rw [if_neg (by simp [hne])]
    have htail : maxGroupLen (gs.map List.tail) = n := by
      rw [maxGroupLen_tail, hn]
      rfl
    refine List.Perm.trans ?_ (flatten_perm_heads_tails gs).symm
    exact List.Perm.append_left _ (ih (gs.map List.tail) htail)

theorem roundRobin_perm_flatten {α : Type} (gs : List (List α)) :
    List.Perm (roundRobin gs) gs.flatten :=
  roundRobin_perm_flatten_aux (maxGroupLen gs) gs rfl

theorem flatten_filter_key_perm {α : Type} (key : α → String) :
    ∀ (ks : List String) (l : List α), ks.Nodup → (∀ x ∈ l, key x ∈ ks) →
      List.Perm (ks.map (fun k => l.filter (fun x => key x == k))).flatten l := by
  intro ks
  induction ks with
  | nil =>
    intro l _ hcov
    have hl : l = [] := by
      cases l with
      | nil => rfl
      | cons a t => exact absurd (hcov a (by simp)) (by simp)
    rw [hl]
    simp
  | cons k ks ih =>
    intro l hnd hcov
    simp only [List.map_cons, List.flatten_cons]
    have hknotin : k ∉ ks := (List.nodup_cons.mp hnd).1
    have hmapeq : ∀ k' ∈ ks, l.filter (fun x => key x == k')
        = (l.filter (fun x => !(key x == k))).filter (fun x => key x == k') := by
      intro k' hk'
      rw [List.filter_filter]
      apply List.filter_congr
      intro x hx
      cases hbeq : (key x == k') with
      | false => simp
      | true =>
        have hxk' : key x = k' := beq_iff_eq.mp hbeq
        have hxnotk : (key x == k) = false := by
          rw [beq_eq_false_iff_ne, hxk']
          intro he
          exact hknotin (he ▸ hk')
        rw [hxnotk]
        simp
    have hrw : (ks.map (fun k' => l.filter (fun x => key x == k'))).flatten
        = (ks.map (fun k' => (l.filter (fun x => !(key x == k))).filter
            (fun x => key x == k'))).flatten := by
      congr 1
      exact List.map_congr_left hmapeq
    rw [hrw]
    have hcov' : ∀ x ∈ l.filter (fun x => !(key x == k)), key x ∈ ks := by
      intro x hx
      rw [List.mem_filter] at hx
      rcases List.mem_cons.mp (hcov x hx.1) with h | h
      · exfalso
        have : (key x == k) = true := beq_iff_eq.mpr h
        rw [this] at hx
        simpa using hx.2
      · exact h
    have ihh := ih (l.filter (fun x => !(key x == k))) (List.nodup_cons.mp hnd).2 hcov'
    refine List.Perm.trans (List.Perm.append_left _ ihh) ?_
    exact List.filter_append_perm _ l

/-- C9: reorder_files_for_scan returns a permutation of its input — the
grouping covers every candidate under its unique key, the per-group sort
is a permutation, and the round-robin interleave permutes the
concatenation of the groups. -/
theorem c9_reorder_permutation (files : List (String × String)) :
    List.Perm (reorder_files_for_scan files) files := by
  unfold reorder_files_for_scan
  refine List.Perm.trans (roundRobin_perm_flatten _) ?_
  have hforall : ∀ (ks : List String), List.Forall₂ List.Perm
      (ks.map (fun k => sortGroup (groupOf files k)))
      (ks.map (fun k => groupOf files k)) := by
    intro ks
    induction ks with
    | nil => exact List.Forall₂.nil
    | cons k ks ih => exact List.Forall₂.cons (List.perm_insertionSort _ _) ih
  refine List.Perm.trans (List.Perm.flatten_congr (hforall (groupKeys files))) ?_
  exact flatten_filter_key_perm (fun it => group_key it.1) (groupKeys files) files
    (groupKeys_nodup files) (fun x hx => group_key_mem_groupKeys files x hx)

end Repomap
